import Mathlib

/-!
Shallow embedding of `surfalize/abbottfirestone.py` (class `AbbottFirestoneCurve`)
over exact rationals.  Heights and material ratios are modelled as `List ℚ`.
The numeric utilities `interp1d`, `argclosest` and `trapezoid` live in
`surfalize/mathutils.py`, which is not part of the sources at hand; they are
modelled from the specification and marked as such in their doc comments.
The `numpy.histogram` primitive is modelled after its documented behaviour
(equal-width bins on `[min, max]`, the degenerate all-equal range expanded to
`[v - 1/2, v + 1/2]`, every bin half-open except the last, which is closed).
-/

attribute [local semireducible] Rat.add Rat.sub Rat.mul Rat.inv

/-- Minimum of a data list, as `numpy`'s `a.min()` (data assumed nonempty). -/
def dataMin (data : List ℚ) : ℚ := data.foldl min (data.headD 0)

/-- Maximum of a data list, as `numpy`'s `a.max()` (data assumed nonempty). -/
def dataMax (data : List ℚ) : ℚ := data.foldl max (data.headD 0)

/-- Edge `k` of `n` equal-width histogram bins spanning `[lo, hi]`. -/
def binEdge (lo hi : ℚ) (n k : ℕ) : ℚ := lo + (hi - lo) * k / n

/-- Membership test of value `v` in histogram bin `i` of `n`: bins are
half-open `[e_i, e_(i+1))` except the last, which is the closed `[e_(n-1), hi]`. -/
def binPred (lo hi : ℚ) (n i : ℕ) (v : ℚ) : Bool :=
  if i + 1 = n then decide (binEdge lo hi n i ≤ v ∧ v ≤ hi)
  else decide (binEdge lo hi n i ≤ v ∧ v < binEdge lo hi n (i + 1))

/-- Count of the data values falling into histogram bin `i`. -/
def binCount (data : List ℚ) (lo hi : ℚ) (n i : ℕ) : ℕ :=
  (data.filter (binPred lo hi n i)).length

/-- Lower end of the histogram range: the data minimum, shifted down by `1/2`
when the data is constant (numpy's degenerate-range expansion). -/
def histLo (data : List ℚ) : ℚ :=
  if dataMin data = dataMax data then dataMin data - 1/2 else dataMin data

/-- Upper end of the histogram range, symmetric to `histLo`. -/
def histHi (data : List ℚ) : ℚ :=
  if dataMin data = dataMax data then dataMax data + 1/2 else dataMax data

/-- Model of `numpy.histogram(data, bins)`: per-bin counts and the `bins + 1`
bin edges. -/
def histogram (data : List ℚ) (bins : ℕ) : List ℕ × List ℚ :=
  ((List.range bins).map (binCount data (histLo data) (histHi data) bins),
   (List.range (bins + 1)).map (binEdge (histLo data) (histHi data) bins))

/-- Running sums starting from accumulator `acc` (helper for `cumsum`). -/
def cumsumFrom (acc : ℕ) : List ℕ → List ℕ
  | [] => []
  | x :: xs => (acc + x) :: cumsumFrom (acc + x) xs

/-- Model of `numpy.cumsum` on a list of counts. -/
def cumsum (l : List ℕ) : List ℕ := cumsumFrom 0 l

/-- Embedding of `AbbottFirestoneCurve._get_material_ratio_curve`:
histogram the data, reverse counts and edges, and return
`(height, material_ratio)` where
`material_ratio = [100] ++ cumsum(hist) / hist.sum() * 100`. -/
def get_material_ratio_curve (data : List ℚ) (nbins : ℕ) : List ℚ × List ℚ :=
  let hist := (histogram data nbins).1.reverse
  let height := (histogram data nbins).2.reverse
  (height, 100 :: (cumsum hist).map (fun c : ℕ => (c : ℚ) / (hist.sum : ℚ) * 100))

/-- The ISO 25178-2 equivalence line width, `EQUIVALENCE_LINE_WIDTH = 40`. -/
def EQUIVALENCE_LINE_WIDTH : ℚ := 40

/-- Modelled from the spec: `interp1d` from the missing `surfalize/mathutils.py`
is a monotone piecewise-linear interpolant through the knots, clamped to the
boundary values outside the knot range.  This recursion works on the zipped
knot list. -/
def interpAux : List (ℚ × ℚ) → ℚ → ℚ
  | [], _ => 0
  | [p], _ => p.2
  | p :: q :: ps, t =>
    if t ≤ p.1 then p.2
    else if t ≤ q.1 then p.2 + (q.2 - p.2) * (t - p.1) / (q.1 - p.1)
    else interpAux (q :: ps) t

/-- Modelled from the spec: `interp1d(x, y)` (missing `surfalize/mathutils.py`)
returns the clamped piecewise-linear interpolant of the `(x, y)` knots. -/
def interp1d (x y : List ℚ) : ℚ → ℚ := fun t => interpAux (x.zip y) t

/-- Modelled from the spec: `trapezoid(y, x)` (missing `surfalize/mathutils.py`)
is the composite trapezoidal integral of the `(x, y)` pairs in given order,
as `numpy.trapz(y, x)`. -/
def trapezoid : List ℚ → List ℚ → ℚ
  | y0 :: y1 :: ys, x0 :: x1 :: xs => (y0 + y1) / 2 * (x1 - x0) + trapezoid (y1 :: ys) (x1 :: xs)
  | _, _ => 0

/-- Modelled from the spec: `argclosest(t, xs)` (missing
`surfalize/mathutils.py`) is the argmin of the absolute difference between the
target `t` and each element of `xs`, ties resolved by first occurrence. -/
def argclosest (t : ℚ) : List ℚ → ℕ
  | [] => 0
  | [_] => 0
  | x0 :: x1 :: rest =>
    if |(x1 :: rest).getD (argclosest t (x1 :: rest)) 0 - t| < |x0 - t| then
      argclosest t (x1 :: rest) + 1
    else 0

/-- Candidate slope of the equivalence-line search at start index `i`:
`(smc_fit(material_ratio[i] + W) - height[i]) / W`. -/
def slopeAt (mr h : List ℚ) (i : ℕ) : ℚ :=
  (interp1d mr h (mr.getD i 0 + EQUIVALENCE_LINE_WIDTH) - h.getD i 0) / EQUIVALENCE_LINE_WIDTH

/-- Comparison `slope > max_slope` where `none` models the `-inf` sentinel
initial value of `max_slope`. -/
def slopeGt (s : ℚ) : Option ℚ → Bool
  | none => true
  | some m => decide (m < s)

/-- The body of the search loop of `_calculate_equivalence_line`, iterating
over the remaining candidate start indices with state
`(max_slope, istart_final)`.  Returning the state at the head of the index
list models the `break`; skipping to the tail models the `continue`. -/
def eqLoop (mr h : List ℚ) : List ℕ → Option ℚ × ℕ → Option ℚ × ℕ
  | [], st => st
  | i :: rest, (max_slope, istart_final) =>
    if 100 - EQUIVALENCE_LINE_WIDTH < mr.getD i 0 then (max_slope, istart_final)
    else if 100 < mr.getD i 0 + EQUIVALENCE_LINE_WIDTH then
      eqLoop mr h rest (max_slope, istart_final)
    else if slopeGt (slopeAt mr h i) max_slope then eqLoop mr h rest (some (slopeAt mr h i), i)
    else eqLoop mr h rest (max_slope, istart_final)

/-- The search part of `_calculate_equivalence_line`: run the loop over all
indices of `material_ratio` with initial state `(-inf, 0)`. -/
def eqSearch (mr h : List ℚ) : Option ℚ × ℕ := eqLoop mr h (List.range mr.length) (none, 0)

/-- Embedding of the tail of `_calculate_equivalence_line`: from the found
`max_slope` and `istart_final` build `(slope, intercept, y_upper, y_lower)`.
When no candidate was found (`max_slope` still the `-inf` sentinel) the Python
code emits non-finite values; that case is modelled as `none`. -/
def calculate_equivalence_line (mr h : List ℚ) : Option (ℚ × ℚ × ℚ × ℚ) :=
  match eqSearch mr h with
  | (none, _) => none
  | (some s, i) =>
    some (s, h.getD i 0 - s * mr.getD i 0, h.getD i 0 - s * mr.getD i 0,
      s * 100 + (h.getD i 0 - s * mr.getD i 0))

/-- State of a constructed `AbbottFirestoneCurve` object: the fields the
derived functional parameters read. -/
structure AbbottFirestoneCurve where
  height : List ℚ
  material_ratio : List ℚ
  y_upper : ℚ
  y_lower : ℚ

/-- Embedding of `AbbottFirestoneCurve.Smr`: interpolate `material_ratio`
over `height`. -/
def Smr (A : AbbottFirestoneCurve) (c : ℚ) : ℚ := interp1d A.height A.material_ratio c

/-- Embedding of `AbbottFirestoneCurve.Smc`: interpolate `height` over
`material_ratio`. -/
def Smc (A : AbbottFirestoneCurve) (mr : ℚ) : ℚ := interp1d A.material_ratio A.height mr

/-- Embedding of `AbbottFirestoneCurve.Smr1 = Smr(y_upper)`. -/
def Smr1 (A : AbbottFirestoneCurve) : ℚ := Smr A A.y_upper

/-- Embedding of `AbbottFirestoneCurve.Smr2 = Smr(y_lower)`. -/
def Smr2 (A : AbbottFirestoneCurve) : ℚ := Smr A A.y_lower

/-- Embedding of `AbbottFirestoneCurve.Sk = y_upper - y_lower`. -/
def Sk (A : AbbottFirestoneCurve) : ℚ := A.y_upper - A.y_lower

/-- Embedding of `AbbottFirestoneCurve.Spk`:
`idx = argclosest(y_upper, height)`,
`area = trapezoid(material_ratio[:idx], height[:idx])`,
`Spk = 2 * |area| / Smr1()`. -/
def Spk (A : AbbottFirestoneCurve) : ℚ :=
  2 * |trapezoid (A.material_ratio.take (argclosest A.y_upper A.height))
        (A.height.take (argclosest A.y_upper A.height))| / Smr1 A

example : get_material_ratio_curve [0, 1] 2 = ([1, 1/2, 0], [100, 50, 100]) := by decide
example : get_material_ratio_curve (List.replicate 4 0) 4 =
    ([1/2, 1/4, 0, -1/4, -1/2], [100, 0, 100, 100, 100]) := by decide
example : eqSearch [0, 50, 100] [2, 1, 0] = (some (-1/50), 0) := by decide
example : calculate_equivalence_line [0, 50, 100] [2, 1, 0] = some (-1/50, 2, 2, 0) := by decide

/-! Helper lemmas about `cumsum` and the material-ratio normalisation. -/

theorem cumsumFrom_head_le (a : ℕ) (l : List ℕ) :
    ∀ y ∈ (cumsumFrom a l).head?, a ≤ y := by
  cases l with
  | nil => intro y hy; simp [cumsumFrom] at hy
  | cons x xs =>
    intro y hy
    simp [cumsumFrom] at hy
    omega

theorem cumsumFrom_chain' (a : ℕ) (l : List ℕ) :
    List.Chain' (· ≤ ·) (cumsumFrom a l) := by
  induction l generalizing a with
  | nil => simp [cumsumFrom]
  | cons x xs ih =>
    rw [cumsumFrom, List.chain'_cons']
    refine ⟨?_, ih (a + x)⟩
    intro y hy
    exact cumsumFrom_head_le (a + x) xs y hy

theorem cumsum_chain' (l : List ℕ) : List.Chain' (· ≤ ·) (cumsum l) := cumsumFrom_chain' 0 l

theorem ratio_mono (T : ℚ) (hT : 0 ≤ T) {a b : ℕ} (hab : a ≤ b) :
    (a : ℚ) / T * 100 ≤ (b : ℚ) / T * 100 := by
  rcases eq_or_lt_of_le hT with h | h
  · simp [← h]
  · have h1 : (a : ℚ) ≤ (b : ℚ) := by exact_mod_cast hab
    have h2 : (a : ℚ) / T ≤ (b : ℚ) / T := (div_le_div_iff_of_pos_right h).mpr h1
    nlinarith

theorem material_ratio_eq (data : List ℚ) (n : ℕ) :
    (get_material_ratio_curve data n).2 =
      100 :: (cumsum ((histogram data n).1.reverse)).map
        (fun c : ℕ => (c : ℚ) / ((((histogram data n).1.reverse).sum : ℕ) : ℚ) * 100) := rfl

theorem height_eq_reverse_edges (data : List ℚ) (n : ℕ) :
    (get_material_ratio_curve data n).1 = (histogram data n).2.reverse := rfl

/-- C2 counterexample: for the height map `[0, 1]` with `nbins = 2`, the
constructed `material_ratio` is `[100, 50, 100]`, which is not non-decreasing
(it drops from the prepended 100 to 50). -/
theorem c2_counterexample :
    (get_material_ratio_curve [0, 1] 2).2 = [100, 50, 100] ∧
      ¬ List.Chain' (· ≤ ·) (get_material_ratio_curve [0, 1] 2).2 := by
  constructor
  · decide
  · intro h
    have : (get_material_ratio_curve [0, 1] 2).2 = [100, 50, 100] := by decide
    rw [this] at h
    have := h.rel_head
    norm_num at this

/-- C2 amended: for every height map, `material_ratio[0] == 100.0` and the
tail `material_ratio[1:]` (the cumulative part) is non-decreasing; only the
step from the prepended leading 100 can decrease. -/
theorem c2_amended (data : List ℚ) (nbins : ℕ) :
    (get_material_ratio_curve data nbins).2.getD 0 0 = 100 ∧
      List.Chain' (· ≤ ·) (get_material_ratio_curve data nbins).2.tail := by
  constructor
  · rfl
  · rw [material_ratio_eq]
    simp only [List.tail_cons]
    refine List.chain'_map_of_chain' _ ?_ (cumsum_chain' _)
    intro a b hab
    exact ratio_mono _ (by positivity) hab

/-! The equivalence-line search on constructed curves. -/

theorem eqSearch_cons_100 (rest h : List ℚ) :
    eqSearch (100 :: rest) h = (none, 0) := by
  have hlen : (100 :: rest : List ℚ).length = rest.length + 1 := rfl
  rw [eqSearch, hlen, List.range_succ_eq_map, eqLoop]
  norm_num [EQUIVALENCE_LINE_WIDTH]

/-- C9: for every height map, the equivalence-line loop exits at its very
first iteration via the break condition (`material_ratio[0]` is the prepended
100, exceeding `100 - 40`), so no candidate slope is ever evaluated: the
stored slope is still the `-inf` sentinel (modelled `none`) and the selected
start index is 0. -/
theorem c9_search_breaks_immediately (data : List ℚ) (nbins : ℕ) :
    eqSearch (get_material_ratio_curve data nbins).2
      (get_material_ratio_curve data nbins).1 = (none, 0) := by
  rw [material_ratio_eq]
  exact eqSearch_cons_100 _ _

/-! Folded minimum and maximum of the data. -/

theorem foldl_min_le_init (l : List ℚ) : ∀ b : ℚ, l.foldl min b ≤ b := by
  induction l with
  | nil => intro b; simp
  | cons x xs ih =>
    intro b
    calc (x :: xs).foldl min b = xs.foldl min (min b x) := rfl
    _ ≤ min b x := ih (min b x)
    _ ≤ b := min_le_left b x

theorem foldl_min_le_mem (l : List ℚ) : ∀ b : ℚ, ∀ x ∈ l, l.foldl min b ≤ x := by
  induction l with
  | nil => intro b x hx; simp at hx
  | cons y ys ih =>
    intro b x hx
    rcases List.mem_cons.mp hx with h | h
    · subst h
      calc (x :: ys).foldl min b = ys.foldl min (min b x) := rfl
      _ ≤ min b x := foldl_min_le_init ys (min b x)
      _ ≤ x := min_le_right b x
    · exact ih (min b y) x h

theorem init_le_foldl_max (l : List ℚ) : ∀ b : ℚ, b ≤ l.foldl max b := by
  induction l with
  | nil => intro b; simp
  | cons x xs ih =>
    intro b
    calc b ≤ max b x := le_max_left b x
    _ ≤ xs.foldl max (max b x) := ih (max b x)
    _ = (x :: xs).foldl max b := rfl

theorem mem_le_foldl_max (l : List ℚ) : ∀ b : ℚ, ∀ x ∈ l, x ≤ l.foldl max b := by
  induction l with
  | nil => intro b x hx; simp at hx
  | cons y ys ih =>
    intro b x hx
    rcases List.mem_cons.mp hx with h | h
    · subst h
      calc x ≤ max b x := le_max_right b x
      _ ≤ ys.foldl max (max b x) := init_le_foldl_max ys (max b x)
      _ = (x :: ys).foldl max b := rfl
    · exact ih (max b y) x h

theorem foldl_max_mem (l : List ℚ) : ∀ b : ℚ, l.foldl max b = b ∨ l.foldl max b ∈ l := by
  induction l with
  | nil => intro b; left; rfl
  | cons x xs ih =>
    intro b
    have hfold : (x :: xs).foldl max b = xs.foldl max (max b x) := rfl
    rcases ih (max b x) with h | h
    · rcases max_cases b x with ⟨he, _⟩ | ⟨he, _⟩
      · left; rw [hfold, h, he]
      · right; rw [hfold, h, he]; exact List.mem_cons_self x xs
    · right; rw [hfold]; exact List.mem_cons_of_mem x h

theorem dataMin_le_mem (data : List ℚ) : ∀ x ∈ data, dataMin data ≤ x :=
  foldl_min_le_mem data (data.headD 0)

theorem mem_le_dataMax (data : List ℚ) : ∀ x ∈ data, x ≤ dataMax data :=
  mem_le_foldl_max data (data.headD 0)

theorem dataMax_mem (data : List ℚ) (hne : data ≠ []) : dataMax data ∈ data := by
  rcases foldl_max_mem data (data.headD 0) with h | h
  · rw [dataMax, h]
    cases data with
    | nil => exact absurd rfl hne
    | cons x xs => exact List.mem_cons_self x xs
  · exact h

theorem dataMin_le_dataMax (data : List ℚ) (hne : data ≠ []) :
    dataMin data ≤ dataMax data :=
  dataMin_le_mem data (dataMax data) (dataMax_mem data hne)

/-! Every data value within the histogram range falls into some bin. -/

theorem binEdge_le_of (lo hi v : ℚ) (n k : ℕ) (hn' : (0:ℚ) < (n:ℚ)) (hw' : (0:ℚ) < hi - lo)
    (h : (hi - lo) * k ≤ (v - lo) * n) : binEdge lo hi n k ≤ v := by
  have h2 : (hi - lo) * k / n ≤ v - lo := (div_le_iff hn').mpr (by linarith)
  rw [binEdge]; linarith

theorem lt_binEdge_of (lo hi v : ℚ) (n k : ℕ) (hn' : (0:ℚ) < (n:ℚ)) (hw' : (0:ℚ) < hi - lo)
    (h : (v - lo) * n < (hi - lo) * k) : v < binEdge lo hi n k := by
  have h2 : v - lo < (hi - lo) * k / n := (lt_div_iff hn').mpr (by linarith)
  rw [binEdge]; linarith

theorem bin_coverage (lo hi v : ℚ) (n : ℕ) (hn : 0 < n) (hw : lo < hi)
    (hv1 : lo ≤ v) (hv2 : v ≤ hi) : ∃ i < n, binPred lo hi n i v = true := by
  have hw' : (0:ℚ) < hi - lo := by linarith
  have hn' : (0:ℚ) < (n:ℚ) := by exact_mod_cast hn
  by_cases hlast : binEdge lo hi n (n - 1) ≤ v
  · refine ⟨n - 1, by omega, ?_⟩
    rw [binPred, if_pos (by omega)]
    simp only [decide_eq_true_eq]
    exact ⟨hlast, hv2⟩
  · push_neg at hlast
    have hvh : v < hi := by
      have hle : ((n - 1 : ℕ) : ℚ) ≤ (n : ℚ) := by exact_mod_cast Nat.sub_le n 1
      have h1 : (hi - lo) * ((n - 1 : ℕ) : ℚ) ≤ (hi - lo) * (n : ℚ) :=
        mul_le_mul_of_nonneg_left hle (le_of_lt hw')
      have h2 : (hi - lo) * ((n - 1 : ℕ) : ℚ) / n ≤ hi - lo :=
        (div_le_iff hn').mpr (by linarith)
      have h3 : binEdge lo hi n (n - 1) ≤ hi := by rw [binEdge]; linarith
      linarith
    have hc0 : 0 ≤ (v - lo) * n / (hi - lo) :=
      div_nonneg (mul_nonneg (by linarith) (by positivity)) (by linarith)
    have hfl0 : (0:ℤ) ≤ ⌊(v - lo) * n / (hi - lo)⌋ := Int.floor_nonneg.mpr hc0
    refine ⟨(⌊(v - lo) * n / (hi - lo)⌋).toNat, ?_, ?_⟩
    · have hcn : (v - lo) * n / (hi - lo) < (n:ℚ) := by
        rw [div_lt_iff hw']; nlinarith
      have : ⌊(v - lo) * n / (hi - lo)⌋ < (n:ℤ) := Int.floor_lt.mpr (by exact_mod_cast hcn)
      omega
    · have hic : ((⌊(v - lo) * n / (hi - lo)⌋).toNat : ℚ) ≤ (v - lo) * n / (hi - lo) := by
        rw [show (((⌊(v - lo) * n / (hi - lo)⌋).toNat : ℚ)) = ((⌊(v - lo) * n / (hi - lo)⌋ : ℤ) : ℚ) by
          exact_mod_cast congrArg Int.cast (Int.toNat_of_nonneg hfl0)]
        exact Int.floor_le _
      have hci : (v - lo) * n / (hi - lo) < ((⌊(v - lo) * n / (hi - lo)⌋).toNat : ℚ) + 1 := by
        rw [show (((⌊(v - lo) * n / (hi - lo)⌋).toNat : ℚ)) = ((⌊(v - lo) * n / (hi - lo)⌋ : ℤ) : ℚ) by
          exact_mod_cast congrArg Int.cast (Int.toNat_of_nonneg hfl0)]
        exact Int.lt_floor_add_one _
      have hkey : (hi - lo) * ((v - lo) * n / (hi - lo)) = (v - lo) * n := by
        field_simp
      have he1 : binEdge lo hi n (⌊(v - lo) * n / (hi - lo)⌋).toNat ≤ v := by
        apply binEdge_le_of lo hi v n _ hn' hw'
        calc (hi - lo) * ((⌊(v - lo) * n / (hi - lo)⌋).toNat : ℚ)
            ≤ (hi - lo) * ((v - lo) * n / (hi - lo)) :=
              mul_le_mul_of_nonneg_left hic (le_of_lt hw')
        _ = (v - lo) * n := hkey
      by_cases hilast : (⌊(v - lo) * n / (hi - lo)⌋).toNat + 1 = n
      · rw [binPred, if_pos hilast]
        simp only [decide_eq_true_eq]
        exact ⟨he1, hv2⟩
      · rw [binPred, if_neg hilast]
        simp only [decide_eq_true_eq]
        refine ⟨he1, ?_⟩
        apply lt_binEdge_of lo hi v n _ hn' hw'
        have h4 : (hi - lo) * ((v - lo) * n / (hi - lo)) <
            (hi - lo) * (((⌊(v - lo) * n / (hi - lo)⌋).toNat : ℚ) + 1) :=
          mul_lt_mul_of_pos_left hci hw'
        rw [hkey] at h4
        push_cast
        linarith

/-! Range bounds and positivity of the total histogram count. -/

theorem histLo_lt_histHi (data : List ℚ) (hne : data ≠ []) : histLo data < histHi data := by
  rw [histLo, histHi]
  by_cases hd : dataMin data = dataMax data
  · rw [if_pos hd, if_pos hd]; linarith
  · rw [if_neg hd, if_neg hd]
    exact lt_of_le_of_ne (dataMin_le_dataMax data hne) hd

theorem histLo_le_dataMax (data : List ℚ) (hne : data ≠ []) : histLo data ≤ dataMax data := by
  rw [histLo]
  by_cases hd : dataMin data = dataMax data
  · rw [if_pos hd, hd]; linarith
  · rw [if_neg hd]; exact dataMin_le_dataMax data hne

theorem dataMax_le_histHi (data : List ℚ) : dataMax data ≤ histHi data := by
  rw [histHi]
  by_cases hd : dataMin data = dataMax data
  · rw [if_pos hd]; linarith
  · rw [if_neg hd]

theorem hist_sum_pos (data : List ℚ) (n : ℕ) (hne : data ≠ []) (hn : 0 < n) :
    0 < ((histogram data n).1).sum := by
  obtain ⟨i, hin, hpred⟩ := bin_coverage (histLo data) (histHi data) (dataMax data) n hn
    (histLo_lt_histHi data hne) (histLo_le_dataMax data hne) (dataMax_le_histHi data)
  have hmem : dataMax data ∈ data.filter (binPred (histLo data) (histHi data) n i) :=
    List.mem_filter.mpr ⟨dataMax_mem data hne, hpred⟩
  have hcount : 0 < binCount data (histLo data) (histHi data) n i := by
    rw [binCount]
    exact List.length_pos.mpr (List.ne_nil_of_mem hmem)
  have hmem2 : binCount data (histLo data) (histHi data) n i ∈ (histogram data n).1 := by
    rw [histogram]
    exact List.mem_map.mpr ⟨i, List.mem_range.mpr hin, rfl⟩
  calc 0 < binCount data (histLo data) (histHi data) n i := hcount
  _ ≤ ((histogram data n).1).sum := List.single_le_sum (fun x _ => Nat.zero_le x) _ hmem2

/-! The last entry of the cumulative material ratio. -/

theorem cumsumFrom_length (a : ℕ) (l : List ℕ) : (cumsumFrom a l).length = l.length := by
  induction l generalizing a with
  | nil => rfl
  | cons x xs ih => simp [cumsumFrom, ih]

theorem cumsum_length (l : List ℕ) : (cumsum l).length = l.length := cumsumFrom_length 0 l

theorem cumsumFrom_getD_last (a : ℕ) (l : List ℕ) (k : ℕ) (hk : l.length = k + 1) :
    (cumsumFrom a l).getD k 0 = a + l.sum := by
  induction l generalizing a k with
  | nil => simp at hk
  | cons x xs ih =>
    cases k with
    | zero =>
      have hxs : xs = [] := List.length_eq_zero.mp (by simpa using hk)
      subst hxs
      simp [cumsumFrom]
    | succ k' =>
      rw [cumsumFrom, List.getD_cons_succ, ih (a + x) k' (by simpa using hk)]
      simp [List.sum_cons]
      omega

theorem cumsum_getD_last (l : List ℕ) (k : ℕ) (hk : l.length = k + 1) :
    (cumsum l).getD k 0 = l.sum := by
  rw [cumsum, cumsumFrom_getD_last 0 l k hk]
  omega

theorem hist_length (data : List ℚ) (n : ℕ) : ((histogram data n).1).length = n := by
  rw [histogram]; simp

/-- C10: for every non-empty height map and every `nbins >= 1`, the last
element `material_ratio[nbins]` of the constructed curve equals 100 (the full
cumulative count divided by the total count, times 100). -/
theorem c10_last_ratio_is_100 (data : List ℚ) (nbins : ℕ) (hne : data ≠ [])
    (hn : 1 ≤ nbins) : (get_material_ratio_curve data nbins).2.getD nbins 0 = 100 := by
  obtain ⟨k, rfl⟩ : ∃ k, nbins = k + 1 := ⟨nbins - 1, by omega⟩
  rw [material_ratio_eq, List.getD_cons_succ]
  have hlen : ((histogram data (k + 1)).1.reverse).length = k + 1 := by
    rw [List.length_reverse, hist_length]
  have hklt : k < ((cumsum ((histogram data (k + 1)).1.reverse)).map
      (fun c : ℕ => (c : ℚ) / ((((histogram data (k + 1)).1.reverse).sum : ℕ) : ℚ) * 100)).length := by
    rw [List.length_map, cumsum_length, hlen]; omega
  rw [List.getD_eq_getElem _ _ hklt, List.getElem_map]
  have hc : (cumsum ((histogram data (k + 1)).1.reverse)).getD k 0 =
      ((histogram data (k + 1)).1.reverse).sum := cumsum_getD_last _ k hlen
  have hklt2 : k < (cumsum ((histogram data (k + 1)).1.reverse)).length := by
    rw [cumsum_length, hlen]; omega
  rw [List.getD_eq_getElem _ _ hklt2] at hc
  rw [hc]
  have hsum : ((histogram data (k + 1)).1.reverse).sum = ((histogram data (k + 1)).1).sum :=
    List.sum_reverse _
  have hpos : 0 < ((histogram data (k + 1)).1).sum := hist_sum_pos data (k + 1) hne (by omega)
  have hne0 : ((((histogram data (k + 1)).1.reverse).sum : ℕ) : ℚ) ≠ 0 := by
    have h' : ((histogram data (k + 1)).1.reverse).sum ≠ 0 := by rw [hsum]; omega
    exact_mod_cast h'
  rw [div_self hne0]
  norm_num

/-- C10 witness: concrete instance at `data = [0, 1]`, `nbins = 2`. -/
theorem c10_witness : ([0, 1] : List ℚ) ≠ [] ∧ 1 ≤ 2 ∧
    (get_material_ratio_curve [0, 1] 2).2.getD 2 0 = 100 :=
  ⟨by decide, by decide, c10_last_ratio_is_100 [0, 1] 2 (by decide) (by decide)⟩

/-! C8: shape of the constructed curve. -/

theorem binEdge_strictMono_step (lo hi : ℚ) (n m : ℕ) (hn : 0 < n) (hw : lo < hi) :
    binEdge lo hi n m < binEdge lo hi n (m + 1) := by
  have hn' : (0:ℚ) < (n:ℚ) := by exact_mod_cast hn
  have hw' : (0:ℚ) < hi - lo := by linarith
  have hmul : (hi - lo) * (m : ℚ) < (hi - lo) * ((m : ℚ) + 1) := by nlinarith
  have hdiv : (hi - lo) * (m : ℚ) / n < (hi - lo) * ((m : ℚ) + 1) / n :=
    (div_lt_div_iff_of_pos_right hn').mpr hmul
  rw [binEdge, binEdge]
  push_cast
  linarith

/-- C8: for every non-empty height map and every `nbins >= 1`, the constructed
curve has `len(height) == len(material_ratio) == nbins + 1`, and `height` is
the reversed sequence of histogram bin edges, hence strictly descending. -/
theorem c8_curve_shape (data : List ℚ) (nbins : ℕ) (hne : data ≠ []) (hn : 1 ≤ nbins) :
    (get_material_ratio_curve data nbins).1.length = nbins + 1 ∧
      (get_material_ratio_curve data nbins).2.length = nbins + 1 ∧
      (get_material_ratio_curve data nbins).1 = ((histogram data nbins).2).reverse ∧
      List.Chain' (fun a b => b < a) (get_material_ratio_curve data nbins).1 := by
  refine ⟨?_, ?_, height_eq_reverse_edges data nbins, ?_⟩
  · rw [height_eq_reverse_edges, histogram]
    simp
  · rw [material_ratio_eq]
    simp [cumsum_length, hist_length]
  · rw [height_eq_reverse_edges, histogram]
    simp only [List.chain'_reverse]
    refine (List.chain'_map _).mpr ?_
    rw [List.chain'_range_succ]
    intro m hm
    show binEdge _ _ _ m < binEdge _ _ _ (m + 1)
    exact binEdge_strictMono_step _ _ nbins m (by omega) (histLo_lt_histHi data hne)

/-- C8 witness: concrete instance at `data = [0, 1]`, `nbins = 2`. -/
theorem c8_witness : ([0, 1] : List ℚ) ≠ [] ∧ 1 ≤ 2 ∧
    ((get_material_ratio_curve [0, 1] 2).1.length = 2 + 1 ∧
      (get_material_ratio_curve [0, 1] 2).2.length = 2 + 1 ∧
      (get_material_ratio_curve [0, 1] 2).1 = ((histogram [0, 1] 2).2).reverse ∧
      List.Chain' (fun a b => b < a) (get_material_ratio_curve [0, 1] 2).1) :=
  ⟨by decide, by decide, c8_curve_shape [0, 1] 2 (by decide) (by decide)⟩

/-! C3: the degenerate all-constant height map. -/

theorem hist_fst (data : List ℚ) (n : ℕ) :
    (histogram data n).1 =
      (List.range n).map (binCount data (histLo data) (histHi data) n) := rfl

theorem hist_snd (data : List ℚ) (n : ℕ) :
    (histogram data n).2 =
      (List.range (n + 1)).map (binEdge (histLo data) (histHi data) n) := rfl

theorem foldl_min_replicate (v : ℚ) (m : ℕ) : (List.replicate m v).foldl min v = v := by
  induction m with
  | zero => rfl
  | succ k ih => rw [List.replicate_succ]; simpa [min_self] using ih

theorem foldl_max_replicate (v : ℚ) (m : ℕ) : (List.replicate m v).foldl max v = v := by
  induction m with
  | zero => rfl
  | succ k ih => rw [List.replicate_succ]; simpa [max_self] using ih

theorem dataMin_replicate (v : ℚ) (m : ℕ) : dataMin (List.replicate (m + 1) v) = v := by
  rw [dataMin, List.replicate_succ, List.headD_cons]
  simpa [min_self] using foldl_min_replicate v m

theorem dataMax_replicate (v : ℚ) (m : ℕ) : dataMax (List.replicate (m + 1) v) = v := by
  rw [dataMax, List.replicate_succ, List.headD_cons]
  simpa [max_self] using foldl_max_replicate v m

theorem histLo_replicate (v : ℚ) (m : ℕ) : histLo (List.replicate (m + 1) v) = v - 1/2 := by
  rw [histLo, if_pos, dataMin_replicate]
  rw [dataMin_replicate, dataMax_replicate]

theorem histHi_replicate (v : ℚ) (m : ℕ) : histHi (List.replicate (m + 1) v) = v + 1/2 := by
  rw [histHi, if_pos, dataMax_replicate]
  rw [dataMin_replicate, dataMax_replicate]

theorem getD_zero_eq_head?_getD (l : List ℚ) : l.getD 0 0 = l.head?.getD 0 := by
  cases l <;> rfl

theorem getD_zero_eq_head?_getD_nat (l : List ℕ) : l.getD 0 0 = l.head?.getD 0 := by
  cases l <;> rfl

theorem cumsum_getD_zero (l : List ℕ) : (cumsum l).getD 0 0 = l.getD 0 0 := by
  cases l with
  | nil => rfl
  | cons x xs => simp [cumsum, cumsumFrom]

theorem map_getD_zero (f : ℕ → ℚ) (l : List ℕ) (hl : l ≠ []) :
    (l.map f).getD 0 0 = f (l.getD 0 0) := by
  cases l with
  | nil => exact absurd rfl hl
  | cons x xs => rfl

theorem range_getLast? (n : ℕ) (hn : 1 ≤ n) : (List.range n).getLast? = some (n - 1) := by
  obtain ⟨k, rfl⟩ : ∃ k, n = k + 1 := ⟨n - 1, by omega⟩
  rw [List.range_succ, List.getLast?_concat]
  simp

theorem topBin_empty_of_flat (v : ℚ) (m n : ℕ) (hn : 3 ≤ n) :
    binCount (List.replicate (m + 1) v) (v - 1/2) (v + 1/2) n (n - 1) = 0 := by
  have hpred : binPred (v - 1/2) (v + 1/2) n (n - 1) v = false := by
    have hn' : (0:ℚ) < (n:ℚ) := by positivity
    have hlt : v < binEdge (v - 1/2) (v + 1/2) n (n - 1) := by
      apply lt_binEdge_of _ _ _ _ _ hn' (by linarith)
      have hcast : ((n - 1 : ℕ) : ℚ) = (n : ℚ) - 1 := by
        push_cast [Nat.cast_sub (by omega : 1 ≤ n)]
        ring
      rw [hcast]
      have hn3 : (3:ℚ) ≤ (n:ℚ) := by exact_mod_cast hn
      nlinarith
    rw [binPred, if_pos (by omega)]
    simp only [decide_eq_false_iff_not]
    rintro ⟨h1, -⟩
    linarith
  rw [binCount, List.filter_replicate, hpred]
  simp

theorem flat_curve_ratio_one (v : ℚ) (m n : ℕ) (hn : 3 ≤ n) :
    (get_material_ratio_curve (List.replicate (m + 1) v) n).2.getD 1 0 = 0 := by
  rw [material_ratio_eq, List.getD_cons_succ]
  have hCne : cumsum ((histogram (List.replicate (m + 1) v) n).1.reverse) ≠ [] := by
    apply List.length_pos.mp
    rw [cumsum_length, List.length_reverse, hist_length]
    omega
  rw [map_getD_zero _ _ hCne, cumsum_getD_zero, getD_zero_eq_head?_getD_nat,
    List.head?_reverse, hist_fst, List.getLast?_map, range_getLast? n (by omega)]
  simp only [Option.map_some', Option.getD_some]
  rw [histLo_replicate, histHi_replicate, topBin_empty_of_flat v m n hn]
  norm_num

theorem flat_curve_height_head (v : ℚ) (m n : ℕ) (hn : 1 ≤ n) :
    (get_material_ratio_curve (List.replicate (m + 1) v) n).1.getD 0 0 = v + 1/2 := by
  rw [height_eq_reverse_edges, getD_zero_eq_head?_getD, List.head?_reverse, hist_snd,
    List.getLast?_map, range_getLast? (n + 1) (by omega)]
  simp only [Option.map_some', Option.getD_some, Nat.add_sub_cancel]
  rw [histLo_replicate, histHi_replicate, binEdge]
  have hn' : ((n:ℚ)) ≠ 0 := by positivity
  field_simp
  ring

/-- C3: the all-zeros height map with `nbins = 10000` does not yield the
behaviour the spec and the repository's own tests demand.  The code produces
`material_ratio[1] = 0` (not 100) and `height[0] = 1/2` (not the constant 0):
numpy expands the degenerate range to `[-1/2, 1/2]`, so `height` is a strictly
descending edge sequence and the lone occupied bin sits in the middle of
`material_ratio`. -/
theorem c3_flat_surface_bug :
    (get_material_ratio_curve (List.replicate 10000 (0:ℚ)) 10000).2.getD 1 0 = 0 ∧
      (get_material_ratio_curve (List.replicate 10000 (0:ℚ)) 10000).1.getD 0 0 = 1/2 := by
  constructor
  · exact flat_curve_ratio_one 0 9999 10000 (by norm_num)
  · exact flat_curve_height_head 0 9999 10000 (by norm_num)

/-! C1: the equivalence-line search as a fold over the candidate indices. -/

/-- One accepted iteration of the search loop: replace the best state when the
candidate slope strictly exceeds the stored maximum. -/
def afStep (mr h : List ℚ) (st : Option ℚ × ℕ) (i : ℕ) : Option ℚ × ℕ :=
  if slopeGt (slopeAt mr h i) st.1 then (some (slopeAt mr h i), i) else st

/-- The candidate start indices the loop actually evaluates: indices in
increasing order up to (excluding) the first whose material ratio exceeds
`100 - W`, skipping those whose shifted ratio exceeds 100. -/
def candidates (mr : List ℚ) : List ℕ :=
  ((List.range mr.length).takeWhile
      (fun i => decide (mr.getD i 0 ≤ 100 - EQUIVALENCE_LINE_WIDTH))).filter
    (fun i => decide (mr.getD i 0 + EQUIVALENCE_LINE_WIDTH ≤ 100))

theorem eqLoop_eq_foldl (mr h : List ℚ) :
    ∀ (L : List ℕ) (st : Option ℚ × ℕ),
      eqLoop mr h L st =
        ((L.takeWhile (fun i => decide (mr.getD i 0 ≤ 100 - EQUIVALENCE_LINE_WIDTH))).filter
            (fun i => decide (mr.getD i 0 + EQUIVALENCE_LINE_WIDTH ≤ 100))).foldl
          (afStep mr h) st := by
  intro L
  induction L with
  | nil => intro st; rfl
  | cons i rest ih =>
    intro st
    obtain ⟨ms, ifin⟩ := st
    rw [eqLoop, List.takeWhile_cons]
    by_cases h1 : 100 - EQUIVALENCE_LINE_WIDTH < mr.getD i 0
    · have hb1 : ¬((fun i => decide (mr.getD i 0 ≤ 100 - EQUIVALENCE_LINE_WIDTH)) i = true) := by
        simp only [decide_eq_true_eq]
        exact not_le.mpr h1
      rw [if_pos h1, if_neg hb1]
      rfl
    · have hb1 : (fun i => decide (mr.getD i 0 ≤ 100 - EQUIVALENCE_LINE_WIDTH)) i = true := by
        simp only [decide_eq_true_eq]
        exact not_lt.mp h1
      rw [if_neg h1, if_pos hb1, List.filter_cons]
      by_cases h2 : 100 < mr.getD i 0 + EQUIVALENCE_LINE_WIDTH
      · have hb2 : ¬((fun i => decide (mr.getD i 0 + EQUIVALENCE_LINE_WIDTH ≤ 100)) i = true) := by
          simp only [decide_eq_true_eq]
          exact not_le.mpr h2
        rw [if_pos h2, if_neg hb2]
        exact ih (ms, ifin)
      · have hb2 : (fun i => decide (mr.getD i 0 + EQUIVALENCE_LINE_WIDTH ≤ 100)) i = true := by
          simp only [decide_eq_true_eq]
          exact not_lt.mp h2
        rw [if_neg h2, if_pos hb2, List.foldl_cons]
        by_cases h3 : slopeGt (slopeAt mr h i) ms = true
        · have hstep : afStep mr h (ms, ifin) i = (some (slopeAt mr h i), i) := by
            rw [afStep, if_pos h3]
          rw [if_pos h3, hstep]
          exact ih _
        · have hstep : afStep mr h (ms, ifin) i = (ms, ifin) := by rw [afStep, if_neg h3]
          rw [if_neg h3, hstep]
          exact ih _

theorem eqSearch_eq_foldl (mr h : List ℚ) :
    eqSearch mr h = (candidates mr).foldl (afStep mr h) (none, 0) :=
  eqLoop_eq_foldl mr h (List.range mr.length) (none, 0)

theorem candidates_pairwise (mr : List ℚ) : (candidates mr).Pairwise (· < ·) :=
  (List.pairwise_lt_range _).sublist
    ((List.filter_sublist _).trans (List.takeWhile_sublist _))

theorem mem_takeWhile_range_iff (n : ℕ) :
    ∀ (p : ℕ → Bool) (i : ℕ),
      i ∈ (List.range n).takeWhile p ↔ i < n ∧ ∀ k ≤ i, p k = true := by
  induction n with
  | zero => intro p i; simp
  | succ n ih =>
    intro p i
    rw [List.range_succ_eq_map, List.takeWhile_cons]
    by_cases hp0 : p 0 = true
    · rw [if_pos hp0, List.takeWhile_map]
      constructor
      · intro hmem
        rcases List.mem_cons.mp hmem with rfl | hmem'
        · refine ⟨Nat.succ_pos n, fun k hk => ?_⟩
          have hk0 : k = 0 := Nat.le_zero.mp hk
          rw [hk0]; exact hp0
        · obtain ⟨j, hj, rfl⟩ := List.mem_map.mp hmem'
          obtain ⟨hjn, hall⟩ := (ih (p ∘ Nat.succ) j).mp hj
          refine ⟨by omega, ?_⟩
          intro k hk
          cases k with
          | zero => exact hp0
          | succ k' => exact hall k' (by omega)
      · rintro ⟨hin, hall⟩
        cases i with
        | zero => exact List.mem_cons_self ..
        | succ i' =>
          refine List.mem_cons_of_mem _ (List.mem_map.mpr ⟨i', ?_, rfl⟩)
          exact (ih (p ∘ Nat.succ) i').mpr ⟨by omega, fun k hk => hall (k + 1) (by omega)⟩
    · rw [if_neg hp0]
      simp only [List.not_mem_nil, false_iff, not_and]
      intro hin hall
      exact hp0 (hall 0 (Nat.zero_le i))

theorem mem_candidates_iff (mr : List ℚ) (j : ℕ) :
    j ∈ candidates mr ↔ j < mr.length ∧ mr.getD j 0 + EQUIVALENCE_LINE_WIDTH ≤ 100 ∧
      ∀ k ≤ j, mr.getD k 0 ≤ 100 - EQUIVALENCE_LINE_WIDTH := by
  rw [candidates, List.mem_filter, mem_takeWhile_range_iff]
  simp only [decide_eq_true_eq]
  tauto

theorem foldl_afStep_some (mr h : List ℚ) :
    ∀ (C : List ℕ) (m : ℚ) (k : ℕ), C.Pairwise (· < ·) →
      ∃ s i, C.foldl (afStep mr h) (some m, k) = (some s, i) ∧ m ≤ s ∧
        (∀ j ∈ C, slopeAt mr h j ≤ s) ∧
        ((s = m ∧ i = k) ∨
          (i ∈ C ∧ slopeAt mr h i = s ∧ m < s ∧ ∀ j ∈ C, j < i → slopeAt mr h j < s)) := by
  intro C
  induction C with
  | nil =>
    intro m k _
    exact ⟨m, k, rfl, le_refl m, by simp, Or.inl ⟨rfl, rfl⟩⟩
  | cons c C' ih =>
    intro m k hpw
    have hpw' : C'.Pairwise (· < ·) := hpw.of_cons
    have hcall : ∀ j ∈ C', c < j := (List.pairwise_cons.mp hpw).1
    rw [List.foldl_cons]
    by_cases hgt : slopeGt (slopeAt mr h c) (some m) = true
    · have hmc : m < slopeAt mr h c := by simpa [slopeGt] using hgt
      have hstep : afStep mr h (some m, k) c = (some (slopeAt mr h c), c) := by
        rw [afStep, if_pos hgt]
      rw [hstep]
      obtain ⟨s, i, heq, hle, hall, hdisj⟩ := ih (slopeAt mr h c) c hpw'
      refine ⟨s, i, heq, le_of_lt (lt_of_lt_of_le hmc hle), ?_, Or.inr ?_⟩
      · intro j hj
        rcases List.mem_cons.mp hj with rfl | hj'
        · exact hle
        · exact hall j hj'
      · rcases hdisj with ⟨hs, hi⟩ | ⟨hiC, hsi, hms, hfirst⟩
        · refine ⟨by rw [hi]; exact List.mem_cons_self .., by rw [hi, ← hs], by rw [hs]; exact hmc, ?_⟩
          intro j hj hji
          rcases List.mem_cons.mp hj with rfl | hj'
          · omega
          · exact absurd hji (by have := hcall j hj'; omega)
        · refine ⟨List.mem_cons_of_mem c hiC, hsi, lt_trans hmc hms, ?_⟩
          intro j hj hji
          rcases List.mem_cons.mp hj with rfl | hj'
          · exact hms
          · exact hfirst j hj' hji
    · have hmc : slopeAt mr h c ≤ m := by
        simp only [slopeGt, decide_eq_true_eq] at hgt
        exact not_lt.mp hgt
      have hstep : afStep mr h (some m, k) c = (some m, k) := by rw [afStep, if_neg hgt]
      rw [hstep]
      obtain ⟨s, i, heq, hle, hall, hdisj⟩ := ih m k hpw'
      refine ⟨s, i, heq, hle, ?_, ?_⟩
      · intro j hj
        rcases List.mem_cons.mp hj with rfl | hj'
        · exact le_trans hmc hle
        · exact hall j hj'
      · rcases hdisj with hl | ⟨hiC, hsi, hms, hfirst⟩
        · exact Or.inl hl
        · refine Or.inr ⟨List.mem_cons_of_mem c hiC, hsi, hms, ?_⟩
          intro j hj hji
          rcases List.mem_cons.mp hj with rfl | hj'
          · exact lt_of_le_of_lt hmc hms
          · exact hfirst j hj' hji

theorem eqSearch_spec (mr h : List ℚ) (hne : candidates mr ≠ []) :
    ∃ s i, eqSearch mr h = (some s, i) ∧ i ∈ candidates mr ∧ slopeAt mr h i = s ∧
      (∀ j ∈ candidates mr, slopeAt mr h j ≤ s) ∧
      (∀ j ∈ candidates mr, j < i → slopeAt mr h j < s) := by
  rw [eqSearch_eq_foldl]
  have hpw := candidates_pairwise mr
  obtain ⟨c, C', hC⟩ : ∃ c C', candidates mr = c :: C' := by
    cases hc : candidates mr with
    | nil => exact absurd hc hne
    | cons c C' => exact ⟨c, C', rfl⟩
  rw [hC] at hpw ⊢
  have hcall : ∀ j ∈ C', c < j := (List.pairwise_cons.mp hpw).1
  rw [List.foldl_cons]
  have hstep : afStep mr h (none, 0) c = (some (slopeAt mr h c), c) := by
    rw [afStep, if_pos (by simp [slopeGt])]
  rw [hstep]
  obtain ⟨s, i, heq, hle, hall, hdisj⟩ := foldl_afStep_some mr h C' (slopeAt mr h c) c hpw.of_cons
  rcases hdisj with ⟨hs, hi⟩ | ⟨hiC, hsi, hms, hfirst⟩
  · refine ⟨s, i, heq, by rw [hi]; exact List.mem_cons_self .., by rw [hi, hs], ?_, ?_⟩
    · intro j hj
      rcases List.mem_cons.mp hj with rfl | hj'
      · exact hle
      · exact hall j hj'
    · intro j hj hji
      rcases List.mem_cons.mp hj with rfl | hj'
      · omega
      · exact absurd hji (by have := hcall j hj'; omega)
  · refine ⟨s, i, heq, List.mem_cons_of_mem c hiC, hsi, ?_, ?_⟩
    · intro j hj
      rcases List.mem_cons.mp hj with rfl | hj'
      · exact hle
      · exact hall j hj'
    · intro j hj hji
      rcases List.mem_cons.mp hj with rfl | hj'
      · exact hms
      · exact hfirst j hj' hji

/-- C1: whenever the candidate list of the equivalence-line search is
non-empty (candidates are examined in increasing index order, stopping at the
first index whose material ratio exceeds `100 - 40` and skipping any index
whose ratio plus 40 exceeds 100), the search returns the maximal candidate
slope `(height_at_ratio(mr[i] + 40) - height[i]) / 40`, the first candidate
attaining the maximum winning ties, and the outputs satisfy
`intercept = height[i] - slope * mr[i]`, `y_upper = intercept` and
`y_lower = slope * 100 + intercept`. -/
theorem c1_equivalence_line_correct (mr h : List ℚ) (hne : candidates mr ≠ []) :
    ∃ s i, eqSearch mr h = (some s, i) ∧ i ∈ candidates mr ∧ s = slopeAt mr h i ∧
      (∀ j, j ∈ candidates mr ↔ j < mr.length ∧
        mr.getD j 0 + EQUIVALENCE_LINE_WIDTH ≤ 100 ∧
        ∀ k ≤ j, mr.getD k 0 ≤ 100 - EQUIVALENCE_LINE_WIDTH) ∧
      (∀ j ∈ candidates mr, slopeAt mr h j ≤ s) ∧
      (∀ j ∈ candidates mr, slopeAt mr h j = s → i ≤ j) ∧
      calculate_equivalence_line mr h =
        some (s, h.getD i 0 - s * mr.getD i 0, h.getD i 0 - s * mr.getD i 0,
          s * 100 + (h.getD i 0 - s * mr.getD i 0)) := by
  obtain ⟨s, i, heq, hiC, hsi, hall, hfirst⟩ := eqSearch_spec mr h hne
  refine ⟨s, i, heq, hiC, hsi.symm, fun j => mem_candidates_iff mr j, hall, ?_, ?_⟩
  · intro j hj hsj
    by_contra hlt
    push_neg at hlt
    exact absurd hsj (ne_of_lt (hfirst j hj hlt))
  · unfold calculate_equivalence_line
    rw [heq]

/-- C1 witness: for the curve `mr = [0, 50, 100]`, `h = [2, 1, 0]` the
candidate list is non-empty and the search property holds. -/
theorem c1_witness : candidates [0, 50, 100] ≠ [] ∧
    (∃ s i, eqSearch [0, 50, 100] [2, 1, 0] = (some s, i) ∧
      i ∈ candidates [0, 50, 100] ∧ s = slopeAt [0, 50, 100] [2, 1, 0] i ∧
      (∀ j, j ∈ candidates [0, 50, 100] ↔ j < ([0, 50, 100] : List ℚ).length ∧
        ([0, 50, 100] : List ℚ).getD j 0 + EQUIVALENCE_LINE_WIDTH ≤ 100 ∧
        ∀ k ≤ j, ([0, 50, 100] : List ℚ).getD k 0 ≤ 100 - EQUIVALENCE_LINE_WIDTH) ∧
      (∀ j ∈ candidates [0, 50, 100], slopeAt [0, 50, 100] [2, 1, 0] j ≤ s) ∧
      (∀ j ∈ candidates [0, 50, 100], slopeAt [0, 50, 100] [2, 1, 0] j = s → i ≤ j) ∧
      calculate_equivalence_line [0, 50, 100] [2, 1, 0] =
        some (s, ([2, 1, 0] : List ℚ).getD i 0 - s * ([0, 50, 100] : List ℚ).getD i 0,
          ([2, 1, 0] : List ℚ).getD i 0 - s * ([0, 50, 100] : List ℚ).getD i 0,
          s * 100 + (([2, 1, 0] : List ℚ).getD i 0 - s * ([0, 50, 100] : List ℚ).getD i 0))) :=
  ⟨by decide, c1_equivalence_line_correct [0, 50, 100] [2, 1, 0] (by decide)⟩

/-! C4: on a monotone curve every candidate slope is non-positive, so the
equivalence line has `y_upper >= y_lower`. -/

theorem chain'_zip_mono (l₁ : List ℚ) :
    ∀ (l₂ : List ℚ), List.Chain' (· ≤ ·) l₁ → List.Chain' (fun a b : ℚ => b ≤ a) l₂ →
      List.Chain' (fun u w : ℚ × ℚ => u.1 ≤ w.1 ∧ w.2 ≤ u.2) (l₁.zip l₂) := by
  induction l₁ with
  | nil => intro l₂ _ _; simp
  | cons a l₁ ih =>
    intro l₂ h₁ h₂
    cases l₂ with
    | nil => simp
    | cons b l₂ =>
      rw [List.zip_cons_cons]
      apply List.Chain'.cons' (ih l₂ h₁.tail h₂.tail)
      intro y hy
      cases l₁ with
      | nil => simp at hy
      | cons a₁ l₁' =>
        cases l₂ with
        | nil => simp at hy
        | cons b₁ l₂' =>
          rw [List.zip_cons_cons] at hy
          simp only [List.head?_cons, Option.mem_def, Option.some.injEq] at hy
          rw [← hy]
          exact ⟨h₁.rel_head, h₂.rel_head⟩

theorem interpAux_le_head (ps : List (ℚ × ℚ)) :
    ∀ (p : ℚ × ℚ) (t : ℚ),
      List.Chain' (fun u w : ℚ × ℚ => u.1 ≤ w.1 ∧ w.2 ≤ u.2) (p :: ps) →
      interpAux (p :: ps) t ≤ p.2 := by
  induction ps with
  | nil => intro p t _; rw [interpAux]
  | cons q ps ih =>
    intro p t hch
    have hpq : p.1 ≤ q.1 ∧ q.2 ≤ p.2 := hch.rel_head
    rw [interpAux]
    split_ifs with h1 h2
    · exact le_refl p.2
    · have hx : p.1 < t := not_le.mp h1
      have hxx : p.1 < q.1 := lt_of_lt_of_le hx h2
      have hnum : (q.2 - p.2) * (t - p.1) ≤ 0 :=
        mul_nonpos_of_nonpos_of_nonneg (by linarith [hpq.2]) (by linarith)
      have hdiv : (q.2 - p.2) * (t - p.1) / (q.1 - p.1) ≤ 0 :=
        div_nonpos_iff.mpr (Or.inr ⟨hnum, by linarith⟩)
      linarith
    · have := ih q t hch.tail
      linarith [hpq.2]

theorem interpAux_le_getD (ps : List (ℚ × ℚ)) :
    ∀ (t : ℚ) (i : ℕ),
      List.Pairwise (fun u w : ℚ × ℚ => u.1 ≤ w.1 ∧ w.2 ≤ u.2) ps →
      i < ps.length → (ps.getD i (0, 0)).1 < t →
      interpAux ps t ≤ (ps.getD i (0, 0)).2 := by
  induction ps with
  | nil => intro t i _ hi _; simp at hi
  | cons p ps ih =>
    intro t i hpw hi ht
    cases i with
    | zero =>
      rw [List.getD_cons_zero]
      exact interpAux_le_head ps p t hpw.chain'
    | succ i' =>
      have hi' : i' < ps.length := by simpa using hi
      rw [List.getD_cons_succ] at ht ⊢
      have hrel : ∀ w ∈ ps, p.1 ≤ w.1 ∧ w.2 ≤ p.2 := (List.pairwise_cons.mp hpw).1
      have hmem : ps.getD i' (0, 0) ∈ ps := by
        rw [List.getD_eq_getElem _ _ hi']
        exact List.getElem_mem _
      have hp1 : p.1 ≤ (ps.getD i' (0, 0)).1 := (hrel _ hmem).1
      cases ps with
      | nil => simp at hi'
      | cons q ps' =>
        have htp : p.1 < t := lt_of_le_of_lt hp1 ht
        rw [interpAux]
        split_ifs with h1 h2
        · exact absurd h1 (not_le.mpr htp)
        · exfalso
          have hq1 : q.1 ≤ ((q :: ps').getD i' (0, 0)).1 := by
            cases i' with
            | zero => rw [List.getD_cons_zero]
            | succ i'' =>
              rw [List.getD_cons_succ]
              have hi'' : i'' < ps'.length := by simpa using hi'
              have hmem' : ps'.getD i'' (0, 0) ∈ ps' := by
                rw [List.getD_eq_getElem _ _ hi'']
                exact List.getElem_mem _
              exact ((List.pairwise_cons.mp hpw.of_cons).1 _ hmem').1
          linarith [lt_of_le_of_lt hq1 ht]
        · exact ih t i' hpw.of_cons hi' ht

/-- C4: for curve sequences that satisfy the data-model invariants
(`material_ratio` non-decreasing, `height` non-increasing, equal lengths),
whenever the equivalence-line search found a candidate, the resulting line
satisfies `y_upper >= y_lower` (equivalently `Sk >= 0`), because the maximal
slope is non-positive. -/
theorem c4_y_upper_ge_y_lower (mr h : List ℚ) (hlen : mr.length = h.length)
    (hmr : List.Chain' (· ≤ ·) mr) (hh : List.Chain' (fun a b : ℚ => b ≤ a) h)
    (s : ℚ) (istart : ℕ) (hfound : eqSearch mr h = (some s, istart)) :
    calculate_equivalence_line mr h =
      some (s, h.getD istart 0 - s * mr.getD istart 0, h.getD istart 0 - s * mr.getD istart 0,
        s * 100 + (h.getD istart 0 - s * mr.getD istart 0)) ∧
      s * 100 + (h.getD istart 0 - s * mr.getD istart 0) ≤
        h.getD istart 0 - s * mr.getD istart 0 := by
  have hne : candidates mr ≠ [] := by
    intro hc
    rw [eqSearch_eq_foldl, hc] at hfound
    simp at hfound
  obtain ⟨s', i', heq, hiC, hsi, hall, hfirst⟩ := eqSearch_spec mr h hne
  rw [hfound] at heq
  injection heq with heq1 heq2
  injection heq1 with heq1
  subst heq2
  subst heq1
  refine ⟨by unfold calculate_equivalence_line; rw [hfound], ?_⟩
  have hilen : istart < mr.length := ((mem_candidates_iff mr istart).mp hiC).1
  have hslope : slopeAt mr h istart ≤ 0 := by
    rw [slopeAt]
    simp only [interp1d]
    have hzlen : istart < (mr.zip h).length := by
      rw [List.length_zip, hlen, min_self, ← hlen]
      exact hilen
    have hzget : (mr.zip h).getD istart (0, 0) = (mr.getD istart 0, h.getD istart 0) := by
      rw [List.getD_eq_getElem _ _ hzlen, List.getElem_zip,
        List.getD_eq_getElem _ _ hilen, List.getD_eq_getElem _ _ (by omega : istart < h.length)]
    have hch := chain'_zip_mono mr h hmr hh
    have hpw : List.Pairwise (fun u w : ℚ × ℚ => u.1 ≤ w.1 ∧ w.2 ≤ u.2) (mr.zip h) := by
      haveI : IsTrans (ℚ × ℚ) (fun u w : ℚ × ℚ => u.1 ≤ w.1 ∧ w.2 ≤ u.2) :=
        ⟨fun a b c hab hbc => ⟨hab.1.trans hbc.1, hbc.2.trans hab.2⟩⟩
      exact List.chain'_iff_pairwise.mp hch
    have hint := interpAux_le_getD (mr.zip h)
      (mr.getD istart 0 + EQUIVALENCE_LINE_WIDTH) istart hpw hzlen
      (by rw [hzget]; norm_num [EQUIVALENCE_LINE_WIDTH])
    rw [hzget] at hint
    have hW : (0:ℚ) < EQUIVALENCE_LINE_WIDTH := by norm_num [EQUIVALENCE_LINE_WIDTH]
    apply div_nonpos_iff.mpr
    exact Or.inr ⟨by simpa using sub_nonpos.mpr hint, le_of_lt hW⟩
  have hs0 : slopeAt mr h istart * 100 ≤ 0 := by nlinarith
  rw [hsi] at hs0
  linarith

/-- C4 witness: the curve `mr = [0, 50, 100]`, `h = [2, 1, 0]` satisfies the
monotonicity invariants, a candidate is found with slope `-1/50` at index 0,
and the resulting line has `y_lower = 0 <= 2 = y_upper`. -/
theorem c4_witness :
    ([0, 50, 100] : List ℚ).length = ([2, 1, 0] : List ℚ).length ∧
      List.Chain' (· ≤ ·) ([0, 50, 100] : List ℚ) ∧
      List.Chain' (fun a b : ℚ => b ≤ a) ([2, 1, 0] : List ℚ) ∧
      eqSearch [0, 50, 100] [2, 1, 0] = (some (-1/50), 0) ∧
      (calculate_equivalence_line [0, 50, 100] [2, 1, 0] =
        some (-1/50, ([2, 1, 0] : List ℚ).getD 0 0 - (-1/50) * ([0, 50, 100] : List ℚ).getD 0 0,
          ([2, 1, 0] : List ℚ).getD 0 0 - (-1/50) * ([0, 50, 100] : List ℚ).getD 0 0,
          (-1/50) * 100 + (([2, 1, 0] : List ℚ).getD 0 0 -
            (-1/50) * ([0, 50, 100] : List ℚ).getD 0 0)) ∧
        (-1/50) * 100 + (([2, 1, 0] : List ℚ).getD 0 0 -
            (-1/50) * ([0, 50, 100] : List ℚ).getD 0 0) ≤
          ([2, 1, 0] : List ℚ).getD 0 0 - (-1/50) * ([0, 50, 100] : List ℚ).getD 0 0) :=
  ⟨by decide, by norm_num [List.chain'_cons, List.chain'_singleton],
    by norm_num [List.chain'_cons, List.chain'_singleton], by decide,
    c4_y_upper_ge_y_lower [0, 50, 100] [2, 1, 0] (by decide)
      (by norm_num [List.chain'_cons, List.chain'_singleton])
      (by norm_num [List.chain'_cons, List.chain'_singleton]) (-1/50) 0 (by decide)⟩

/-! C7: `argclosest` really is the first argmin of the absolute difference,
and `Spk` is the stated formula at that index. -/

theorem argclosest_lt_length (t : ℚ) :
    ∀ (xs : List ℚ), xs ≠ [] → argclosest t xs < xs.length := by
  intro xs
  induction xs with
  | nil => intro hne; exact absurd rfl hne
  | cons x0 rest ih =>
    intro _
    cases rest with
    | nil => simp [argclosest]
    | cons x1 rest' =>
      rw [argclosest]
      split_ifs with hc
      · have := ih (by simp)
        simp only [List.length_cons] at this ⊢
        omega
      · simp

theorem argclosest_spec (t : ℚ) : ∀ (xs : List ℚ), xs ≠ [] →
    (∀ j < xs.length, |xs.getD (argclosest t xs) 0 - t| ≤ |xs.getD j 0 - t|) ∧
      (∀ j < argclosest t xs, |xs.getD (argclosest t xs) 0 - t| < |xs.getD j 0 - t|) := by
  intro xs
  induction xs with
  | nil => intro hne; exact absurd rfl hne
  | cons x0 rest ih =>
    intro _
    cases rest with
    | nil =>
      constructor
      · intro j hj
        have hj0 : j = 0 := by simpa using hj
        subst hj0
        exact le_refl _
      · intro j hj
        rw [show argclosest t [x0] = 0 from rfl] at hj
        exact absurd hj (Nat.not_lt_zero j)
    | cons x1 rest' =>
      obtain ⟨hmin, hfirst⟩ := ih (by simp)
      rw [argclosest]
      split_ifs with hc
      · constructor
        · intro j hj
          cases j with
          | zero =>
            rw [List.getD_cons_succ, List.getD_cons_zero]
            exact le_of_lt hc
          | succ j' =>
            rw [List.getD_cons_succ, List.getD_cons_succ]
            exact hmin j' (by simpa using hj)
        · intro j hj
          cases j with
          | zero =>
            rw [List.getD_cons_succ, List.getD_cons_zero]
            exact hc
          | succ j' =>
            rw [List.getD_cons_succ, List.getD_cons_succ]
            exact hfirst j' (by omega)
      · constructor
        · intro j hj
          cases j with
          | zero => exact le_refl _
          | succ j' =>
            rw [List.getD_cons_zero, List.getD_cons_succ]
            exact le_trans (not_lt.mp hc) (hmin j' (by simpa using hj))
        · intro j hj
          exact absurd hj (Nat.not_lt_zero j)

/-- C7: whenever `Smr1()` is a nonzero number, `Spk()` equals
`2 * |trapezoidal_integral(material_ratio[:idx], height[:idx])| / Smr1()`,
where `idx = argclosest(y_upper, height)` is the first index minimising the
absolute difference `|height[j] - y_upper|` (first occurrence wins ties). -/
theorem c7_Spk_formula (A : AbbottFirestoneCurve) (hs : Smr1 A ≠ 0)
    (hne : A.height ≠ []) :
    Spk A = 2 * |trapezoid (A.material_ratio.take (argclosest A.y_upper A.height))
        (A.height.take (argclosest A.y_upper A.height))| / Smr1 A ∧
      argclosest A.y_upper A.height < A.height.length ∧
      (∀ j < A.height.length,
        |A.height.getD (argclosest A.y_upper A.height) 0 - A.y_upper| ≤
          |A.height.getD j 0 - A.y_upper|) ∧
      (∀ j < argclosest A.y_upper A.height,
        |A.height.getD (argclosest A.y_upper A.height) 0 - A.y_upper| <
          |A.height.getD j 0 - A.y_upper|) := by
  obtain ⟨hmin, hfirst⟩ := argclosest_spec A.y_upper A.height hne
  exact ⟨rfl, argclosest_lt_length A.y_upper A.height hne, hmin, hfirst⟩

/-- C7 witness: the state `height = [0, 1, 2]`, `material_ratio = [100, 50, 0]`,
`y_upper = 19/10` has `Smr1 = 5` and `idx = 2`, and `Spk` evaluates to 30. -/
theorem c7_witness :
    Smr1 ⟨[0, 1, 2], [100, 50, 0], 19/10, 0⟩ ≠ 0 ∧
      ([0, 1, 2] : List ℚ) ≠ [] ∧
      (Spk ⟨[0, 1, 2], [100, 50, 0], 19/10, 0⟩ =
        2 * |trapezoid (([100, 50, 0] : List ℚ).take
            (argclosest (19/10) [0, 1, 2]))
          (([0, 1, 2] : List ℚ).take (argclosest (19/10) [0, 1, 2]))| /
          Smr1 ⟨[0, 1, 2], [100, 50, 0], 19/10, 0⟩ ∧
        argclosest (19/10) [0, 1, 2] < ([0, 1, 2] : List ℚ).length ∧
        (∀ j < ([0, 1, 2] : List ℚ).length,
          |([0, 1, 2] : List ℚ).getD (argclosest (19/10) [0, 1, 2]) 0 - 19/10| ≤
            |([0, 1, 2] : List ℚ).getD j 0 - 19/10|) ∧
        (∀ j < argclosest (19/10) [0, 1, 2],
          |([0, 1, 2] : List ℚ).getD (argclosest (19/10) [0, 1, 2]) 0 - 19/10| <
            |([0, 1, 2] : List ℚ).getD j 0 - 19/10|)) :=
  ⟨by decide, by decide,
    c7_Spk_formula ⟨[0, 1, 2], [100, 50, 0], 19/10, 0⟩ (by decide) (by decide)⟩
